import Mathlib

/-!
Verification development for `openparse/tables/unitable/core.py`.

The module drives a pretrained encoder-decoder transformer to turn a table
image into an HTML string.  The neural network, the vocabularies and the
image/tensor library calls are opaque collaborators; they are embedded as
fields of explicit environment structures.  The control logic of the module
(the autoregressive greedy decoding loop, logit masking, bounding-box
rescaling, the cell-text regex fix, and the composition in `img_to_html`)
is embedded as executable Lean functions below.

Real-valued logits are modelled as rationals; token ids as naturals;
a batch of token-id sequences as a list of lists of naturals.
-/

/-- An encoder-decoder model as used by `_autoregressive_decode`.
`batchSize` is `image.shape[0]`.  `logits` folds `model.encode`,
`model.decode` (with its causal `subsequent_mask`) and `model.generator`
followed by the `[:, -1, :]` slice into one opaque function from the input
image and the current batch of contexts to one row of last-position
vocabulary logits per batch element. -/
structure EncoderDecoder (Tens : Type) where
  batchSize : Tens → Nat
  logits : Tens → List (List Nat) → List (List ℚ)

/-- Modelled from the spec: `pred_token_within_range` (from `.utils`, not in
the sources) masks logits to the allow-list when one is given (all other
tokens suppressed), else to the deny-list when one is given (those tokens
suppressed).  A suppressed logit (`-inf` in the code) is `none` here. -/
def maskVal (i : Nat) (v : ℚ) : Option (List Nat) → Option (List Nat) → Option ℚ
  | some wl, _ => if i ∈ wl then some v else none
  | none, some bl => if i ∈ bl then none else some v
  | none, none => some v

/-- Apply `maskVal` to each position of a logit row, indices starting at `k`. -/
def maskRowGo (wl bl : Option (List Nat)) : Nat → List ℚ → List (Option ℚ)
  | _, [] => []
  | k, v :: rest => maskVal k v wl bl :: maskRowGo wl bl (k + 1) rest

/-- Mask one row of vocabulary logits with the allow/deny lists. -/
def maskRow (row : List ℚ) (wl bl : Option (List Nat)) : List (Option ℚ) :=
  maskRowGo wl bl 0 row

/-- Strict order on masked logits: a suppressed entry is below every real one. -/
def oLT : Option ℚ → Option ℚ → Bool
  | none, some _ => true
  | some a, some b => decide (a < b)
  | _, none => false

/-- Left fold keeping the leftmost maximal entry together with its index. -/
def argmaxGoP : Nat → Nat × Option ℚ → List (Option ℚ) → Nat × Option ℚ
  | _, best, [] => best
  | i, best, v :: rest =>
      argmaxGoP (i + 1) (if oLT best.2 v then (i, v) else best) rest

/-- Index and value of the leftmost maximum of a masked logit row. -/
def argmaxP : List (Option ℚ) → Nat × Option ℚ
  | [] => (0, none)
  | v :: rest => argmaxGoP 1 (0, v) rest

/-- Modelled from the spec: `greedy_sampling` (from `.utils`, not in the
sources) selects the highest-probability token per sequence, greedily and
with no sampling randomness; ties and all-suppressed rows resolve to the
leftmost index, as `torch.max` does. -/
def greedyToken (l : List (Option ℚ)) : Nat := (argmaxP l).1

/-- One iteration of the loop body of `_autoregressive_decode`
(core.py lines 95-109): compute last-position logits, mask them, select one
token per batch row greedily and append it to that row. -/
def decodeStep {Tens : Type} (m : EncoderDecoder Tens) (img : Tens)
    (wl bl : Option (List Nat)) (ctx : List (List Nat)) : List (List Nat) :=
  (ctx.zip (m.logits img ctx)).map
    (fun p => p.1 ++ [greedyToken (maskRow p.2 wl bl)])

/-- The `for _ in range(max_decode_len)` loop of `_autoregressive_decode`
(core.py lines 90-109): before each iteration, stop early when every batch
sequence already contains the end-of-sequence id. -/
def decodeLoop {Tens : Type} (m : EncoderDecoder Tens) (img : Tens)
    (wl bl : Option (List Nat)) (eos : Nat) : Nat → List (List Nat) → List (List Nat)
  | 0, ctx => ctx
  | n + 1, ctx =>
      if ∀ s ∈ ctx, eos ∈ s then ctx
      else decodeLoop m img wl bl eos n (decodeStep m img wl bl ctx)

/-- Embeds `_autoregressive_decode` (core.py lines 74-110): the context is
initialised to one copy of the prefix per batch element
(`torch.tensor(prefix).repeat(image.shape[0], 1)`), then the greedy loop runs
for at most `maxDecodeLen` iterations. -/
def autoregressiveDecode {Tens : Type} (model : EncoderDecoder Tens) (image : Tens)
    (pre : List Nat) (maxDecodeLen : Nat) (eosId : Nat)
    (tokenWhitelist tokenBlacklist : Option (List Nat)) : List (List Nat) :=
  decodeLoop model image tokenWhitelist tokenBlacklist eosId maxDecodeLen
    (List.replicate (model.batchSize image) pre)

/-- Modelled from the spec: the built-in `round` used by `_rescale_bbox`
is Python rounding, which rounds halves to the nearest even integer. -/
def pyRound (q : ℚ) : ℤ :=
  if q - ⌊q⌋ < 1 / 2 then ⌊q⌋
  else if 1 / 2 < q - ⌊q⌋ then ⌊q⌋ + 1
  else if ⌊q⌋ % 2 = 0 then ⌊q⌋ else ⌊q⌋ + 1

/-- Embeds `_rescale_bbox` (core.py lines 53-71): scale each coordinate of
each box by the per-axis ratio `tgt / src` and round. -/
def rescaleBBox (bbox : List (ℤ × ℤ × ℤ × ℤ)) (src tgt : ℕ × ℕ) :
    List (ℤ × ℤ × ℤ × ℤ) :=
  let widthRatio : ℚ := (tgt.1 : ℚ) / (src.1 : ℚ)
  let heightRatio : ℚ := (tgt.2 : ℚ) / (src.2 : ℚ)
  bbox.map (fun box =>
    (pyRound ((box.1 : ℚ) * widthRatio),
     pyRound ((box.2.1 : ℚ) * heightRatio),
     pyRound ((box.2.2.1 : ℚ) * widthRatio),
     pyRound ((box.2.2.2 : ℚ) * heightRatio)))

/-- The character class of the regex atom `\d` in the pattern at
core.py line 179, on the ASCII inputs in scope: code points 48-57. -/
def isDigitCh (c : Char) : Bool := 48 ≤ c.toNat && c.toNat ≤ 57

/-- The character class of the regex atom `\s`: space, tab, newline,
carriage return, vertical tab, form feed. -/
def isSpaceCh (c : Char) : Bool := c.toNat = 32 || (9 ≤ c.toNat && c.toNat ≤ 13)

/-- The newline character, which the regex atom `.` does not match. -/
def isNewlineCh (c : Char) : Bool := c.toNat = 10

/-- Leftmost match of the pattern `(\d).\s+(\d)` of core.py line 179 at the
head of the input: a digit, then any single non-newline character, then a
maximal nonempty whitespace run, then a digit.  (The greedy `\s+` cannot
backtrack usefully: any shorter run leaves a whitespace character, never a
digit, at the final position.)  Returns the two captured digits and the
remainder of the input after the match. -/
def matchLen : List Char → Option (Char × Char × List Char)
  | d1 :: c :: rest =>
      if isDigitCh d1 && !isNewlineCh c then
        match rest.dropWhile isSpaceCh, (rest.takeWhile isSpaceCh).length with
        | d2 :: rest2, _ + 1 =>
            if isDigitCh d2 then some (d1, d2, rest2) else none
        | _, _ => none
      else none
  | _ => none

/-- `re.sub` scanning: at each position, replace the leftmost match by
captured-digit, literal dot, captured-digit (the replacement `\1.\2`) and
continue after it, else copy one character.  `fuel` bounds the recursion and
is always called with at least the input length. -/
def pySubFuel : Nat → List Char → List Char
  | 0, l => l
  | _ + 1, [] => []
  | fuel + 1, x :: xs =>
      match matchLen (x :: xs) with
      | some (d1, d2, rest2) => d1 :: Char.ofNat 46 :: d2 :: pySubFuel fuel rest2
      | none => x :: pySubFuel fuel xs

/-- Embeds the substitution at core.py line 179:
`re.sub(pattern, repl, i)` with the digit-separator-digit pattern. -/
def pySub (l : List Char) : List Char := pySubFuel l.length l

/-- The line-179 substitution on strings. -/
def pySubStr (s : String) : String := String.mk (pySub s.data)

/-- The opaque collaborators of the prediction pipeline: the three
pretrained models, the vocabularies, the token constant lists from
`.tokens`, the string/token helpers from `.utils`, and the image/tensor
library operations.  All are treated as already-initialised read-only
values, as the spec prescribes. -/
structure Env (Img Tens : Type) where
  structureModel : EncoderDecoder Tens
  bboxModel : EncoderDecoder Tens
  cellModel : EncoderDecoder Tens
  structureVocabTokenToId : String → Nat
  structureVocabDecode : List Nat → String
  bboxVocabTokenToId : String → Nat
  bboxVocabDecode : List Nat → String
  cellVocabTokenToId : String → Nat
  cellVocabDecodeBatch : List (List Nat) → List String
  validHtmlToken : List String
  validBboxToken : List String
  invalidCellToken : List String
  imageToTensor : Img → ℕ × ℕ → Tens
  crop : Img → ℤ × ℤ × ℤ × ℤ → Img
  catNE : List Tens → Tens
  htmlStrToTokenList : String → List String
  bboxStrToTokenList : String → List (ℤ × ℤ × ℤ × ℤ)
  cellStrToTokenList : String → String
  buildTableFromHtmlAndCell : List String → List String → List String
  htmlTableTemplate : String → String

/-- Embeds `predict_html` (core.py lines 113-133): decode constrained to the
whitelist of valid structural tokens from the `[html]` prefix, at most 512
steps; take batch row 0 (`.numpy()[0]`), decode ids to text and split into
a token list. -/
def predictHtml {Img Tens : Type} (env : Env Img Tens) (imageTensor : Tens) :
    List String :=
  let predTensor := autoregressiveDecode env.structureModel imageTensor
    [env.structureVocabTokenToId ("[html]")] 512
    (env.structureVocabTokenToId ("<eos>"))
    (some (env.validHtmlToken.map env.structureVocabTokenToId)) none
  env.htmlStrToTokenList (env.structureVocabDecode (predTensor.headD []))

/-- Embeds `predict_bboxes` (core.py lines 136-154): decode constrained to
the first 449 entries of the bbox-token whitelist from the `[bbox]` prefix,
at most 1024 steps; parse boxes from the decoded text and rescale them from
(448, 448) to the original image size. -/
def predictBboxes {Img Tens : Type} (env : Env Img Tens) (imageTensor : Tens)
    (imageSize : ℕ × ℕ) : List (ℤ × ℤ × ℤ × ℤ) :=
  let predTensor := autoregressiveDecode env.bboxModel imageTensor
    [env.bboxVocabTokenToId ("[bbox]")] 1024
    (env.bboxVocabTokenToId ("<eos>"))
    (some ((env.validBboxToken.take 449).map env.bboxVocabTokenToId)) none
  rescaleBBox (env.bboxStrToTokenList (env.bboxVocabDecode (predTensor.headD [])))
    (448, 448) imageSize

/-- Embeds `predict_cells` (core.py lines 157-180).  The `image_tensor`
parameter is immediately rebound (line 159) to the list of per-box crops of
`image` before any use, exactly as in the source.  `torch.cat` (line 162)
raises a `RuntimeError` on an empty tensor list, embedded as the error
branch; on a nonempty list it is the opaque `catNE`.  Then decode with the
invalid-cell deny-list from the `[cell]` prefix, at most 200 steps, decode
the id batch to strings and apply the line-179 regex substitution. -/
def predictCells {Img Tens : Type} (env : Env Img Tens) (imageTensor : Tens)
    (predBbox : List (ℤ × ℤ × ℤ × ℤ)) (image : Img) : Except String (List String) :=
  let imageTensor := predBbox.map
    (fun bbox => env.imageToTensor (env.crop image bbox) (112, 448))
  match imageTensor with
  | [] => Except.error ("torch.cat: expected a non-empty list of Tensors")
  | t :: ts =>
    let predCell := autoregressiveDecode env.cellModel (env.catNE (t :: ts))
      [env.cellVocabTokenToId ("[cell]")] 200
      (env.cellVocabTokenToId ("<eos>"))
      none (some (env.invalidCellToken.map env.cellVocabTokenToId))
    let strs := (env.cellVocabDecodeBatch predCell).map env.cellStrToTokenList
    Except.ok (strs.map pySubStr)

/-- Embeds `img_to_html` (core.py lines 183-192).  After preprocessing and
`predict_html`, line 186 calls `predict_bboxes(image_tensor)` without the
required `image_size` argument (and line 187 would call
`predict_cells(image_tensor, pred_bbox)` without the required `image`
argument), so in Python every call raises a `TypeError` at line 186 and
nothing later in the body executes; the embedding returns that error. -/
def imgToHtml {Img Tens : Type} (env : Env Img Tens) (image : Img) :
    Except String String :=
  let imageTensor := env.imageToTensor image (448, 448)
  let _predHtml := predictHtml env imageTensor
  Except.error
    ("TypeError: predict_bboxes missing 1 required positional argument: image_size")

/-- A small concrete model used to instantiate the decode theorems on
concrete inputs: batch size 1, constant logits over a three-token
vocabulary. -/
def sampleModel : EncoderDecoder Unit :=
  { batchSize := fun _ => 1, logits := fun _ _ => [[(1 : ℚ), 5, 3]] }

/-- A concrete environment with trivial collaborators, used to instantiate
the pipeline theorems on concrete inputs. -/
def sampleEnv : Env Unit Unit where
  structureModel := sampleModel
  bboxModel := sampleModel
  cellModel := sampleModel
  structureVocabTokenToId := fun _ => 0
  structureVocabDecode := fun _ => ""
  bboxVocabTokenToId := fun _ => 0
  bboxVocabDecode := fun _ => ""
  cellVocabTokenToId := fun _ => 0
  cellVocabDecodeBatch := fun _ => []
  validHtmlToken := []
  validBboxToken := []
  invalidCellToken := []
  imageToTensor := fun _ _ => ()
  crop := fun _ _ => ()
  catNE := fun _ => ()
  htmlStrToTokenList := fun _ => []
  bboxStrToTokenList := fun _ => []
  cellStrToTokenList := fun s => s
  buildTableFromHtmlAndCell := fun _ _ => []
  htmlTableTemplate := fun s => s

lemma oLT_irrefl (a : Option ℚ) : oLT a a = false := by
  cases a with
  | none => rfl
  | some v => simp [oLT]

lemma oLT_asymm_trans (x u b : Option ℚ) (h1 : oLT x u = false) (h2 : oLT b u = true) :
    oLT x b = false := by
  cases x <;> cases u <;> cases b <;> simp_all [oLT] <;> linarith

lemma oLT_neg_trans (x b u : Option ℚ) (h1 : oLT b u = false) (h2 : oLT x b = false) :
    oLT x u = false := by
  cases x <;> cases u <;> cases b <;> simp_all [oLT] <;> linarith

lemma argmaxGoP_shape : ∀ (l : List (Option ℚ)) (i : Nat) (b : Nat × Option ℚ),
    argmaxGoP i b l = b ∨
      ∃ j, ∃ hj : j < l.length, argmaxGoP i b l = (i + j, l.get ⟨j, hj⟩) := by
  intro l
  induction l with
  | nil => intro i b; left; rfl
  | cons v rest ih =>
    intro i b
    rcases ih (i + 1) (if oLT b.2 v then (i, v) else b) with h | ⟨j, hj, h⟩
    · by_cases hc : oLT b.2 v = true
      · right
        refine ⟨0, by simp, ?_⟩
        simp only [hc, if_true] at h
        simp only [argmaxGoP, hc, if_true]
        rw [h]
        simp
      · left
        simp only [argmaxGoP] at h ⊢
        rw [h]
        simp [hc]
    · right
      refine ⟨j + 1, by simpa using hj, ?_⟩
      simp only [argmaxGoP] at h ⊢
      rw [h]
      exact Prod.ext (by omega) rfl

lemma argmaxGoP_max : ∀ (l : List (Option ℚ)) (i : Nat) (b : Nat × Option ℚ),
    oLT (argmaxGoP i b l).2 b.2 = false ∧
      ∀ v ∈ l, oLT (argmaxGoP i b l).2 v = false := by
  intro l
  induction l with
  | nil =>
    intro i b
    exact ⟨oLT_irrefl b.2, by simp⟩
  | cons u rest ih =>
    intro i b
    have hrec := ih (i + 1) (if oLT b.2 u then (i, u) else b)
    by_cases hc : oLT b.2 u = true
    · have h2 : (if oLT b.2 u then ((i : Nat), u) else b).2 = u := by simp [hc]
      rw [h2] at hrec
      have hru : oLT (argmaxGoP (i + 1) (if oLT b.2 u then (i, u) else b) rest).2 u = false :=
        hrec.1
      refine ⟨?_, ?_⟩
      · simp only [argmaxGoP]
        exact oLT_asymm_trans _ _ _ hru hc
      · intro v hv
        simp only [argmaxGoP]
        rcases List.mem_cons.mp hv with h | h
        · rw [h]; exact hru
        · exact hrec.2 v h
    · have hcf : oLT b.2 u = false := by simpa using hc
      have h2 : (if oLT b.2 u then ((i : Nat), u) else b).2 = b.2 := by simp [hcf]
      rw [h2] at hrec
      refine ⟨?_, ?_⟩
      · simp only [argmaxGoP]
        exact hrec.1
      · intro v hv
        simp only [argmaxGoP]
        rcases List.mem_cons.mp hv with h | h
        · rw [h]
          exact oLT_neg_trans _ _ _ hcf hrec.1
        · exact hrec.2 v h

lemma argmaxP_get? (l : List (Option ℚ)) (hne : l ≠ []) :
    l.get? (argmaxP l).1 = some (argmaxP l).2 := by
  cases l with
  | nil => exact absurd rfl hne
  | cons v rest =>
    simp only [argmaxP]
    rcases argmaxGoP_shape rest 1 (0, v) with h | ⟨j, hj, h⟩
    · rw [h]
      rfl
    · rw [h]
      have h1j : (1 + j : Nat) = j + 1 := by omega
      simp only [h1j, List.get?_cons_succ]
      exact List.get?_eq_get hj

lemma argmaxP_max (l : List (Option ℚ)) (v : Option ℚ) (hv : v ∈ l) :
    oLT (argmaxP l).2 v = false := by
  cases l with
  | nil => simp at hv
  | cons u rest =>
    simp only [argmaxP]
    rcases List.mem_cons.mp hv with h | h
    · rw [h]
      exact (argmaxGoP_max rest 1 (0, u)).1
    · exact (argmaxGoP_max rest 1 (0, u)).2 v h

lemma argmaxP_isSome (l : List (Option ℚ)) (j : Nat) (w : ℚ)
    (hj : l.get? j = some (some w)) :
    ∃ u : ℚ, l.get? (argmaxP l).1 = some (some u) := by
  have hne : l ≠ [] := by
    intro h
    rw [h] at hj
    simp at hj
  have hmem : (some w : Option ℚ) ∈ l := List.get?_mem hj
  have hmax : oLT (argmaxP l).2 (some w) = false := argmaxP_max l (some w) hmem
  have hget := argmaxP_get? l hne
  cases hval : (argmaxP l).2 with
  | none =>
    rw [hval] at hmax
    simp [oLT] at hmax
  | some u =>
    refine ⟨u, ?_⟩
    rw [hget, hval]

lemma maskRowGo_get? (wl bl : Option (List Nat)) :
    ∀ (l : List ℚ) (k i : Nat),
      (maskRowGo wl bl k l).get? i = (l.get? i).map (fun v => maskVal (k + i) v wl bl) := by
  intro l
  induction l with
  | nil => intro k i; simp [maskRowGo]
  | cons v rest ih =>
    intro k i
    cases i with
    | zero => simp [maskRowGo]
    | succ n =>
      simp only [maskRowGo, List.get?_cons_succ, ih (k + 1) n]
      have : k + 1 + n = k + (n + 1) := by omega
      rw [this]

lemma maskRow_get? (row : List ℚ) (wl bl : Option (List Nat)) (i : Nat) :
    (maskRow row wl bl).get? i = (row.get? i).map (fun v => maskVal i v wl bl) := by
  have h := maskRowGo_get? wl bl row 0 i
  simpa using h

lemma greedyToken_mem_whitelist (row : List ℚ) (wl : List Nat)
    (hrow : ∃ i, i ∈ wl ∧ i < row.length) :
    greedyToken (maskRow row (some wl) none) ∈ wl := by
  obtain ⟨i0, hi0w, hi0len⟩ := hrow
  have hv0 : row.get? i0 = some (row.get ⟨i0, hi0len⟩) := List.get?_eq_get hi0len
  have hmv : (maskRow row (some wl) none).get? i0 = some (some (row.get ⟨i0, hi0len⟩)) := by
    rw [maskRow_get?, hv0]
    simp [maskVal, hi0w]
  obtain ⟨u, hu⟩ := argmaxP_isSome (maskRow row (some wl) none) i0 _ hmv
  set r := (argmaxP (maskRow row (some wl) none)).1 with hr
  rw [maskRow_get? row (some wl) none r] at hu
  cases hrget : row.get? r with
  | none => rw [hrget] at hu; simp at hu
  | some vr =>
    rw [hrget] at hu
    simp only [Option.map_some', Option.some.injEq] at hu
    by_cases hrw : r ∈ wl
    · exact hrw
    · rw [maskVal] at hu
      simp [hrw] at hu

lemma greedyToken_not_mem_blacklist (row : List ℚ) (bl : List Nat)
    (hrow : ∃ i, i < row.length ∧ i ∉ bl) :
    greedyToken (maskRow row none (some bl)) ∉ bl := by
  obtain ⟨i0, hi0len, hi0b⟩ := hrow
  have hv0 : row.get? i0 = some (row.get ⟨i0, hi0len⟩) := List.get?_eq_get hi0len
  have hmv : (maskRow row none (some bl)).get? i0 = some (some (row.get ⟨i0, hi0len⟩)) := by
    rw [maskRow_get?, hv0]
    simp [maskVal, hi0b]
  obtain ⟨u, hu⟩ := argmaxP_isSome (maskRow row none (some bl)) i0 _ hmv
  set r := (argmaxP (maskRow row none (some bl))).1 with hr
  rw [maskRow_get? row none (some bl) r] at hu
  cases hrget : row.get? r with
  | none => rw [hrget] at hu; simp at hu
  | some vr =>
    rw [hrget] at hu
    simp only [Option.map_some', Option.some.injEq] at hu
    intro hrb
    have hrb2 : r ∈ bl := hrb
    rw [maskVal] at hu
    simp [hrb2] at hu

lemma decodeStep_mem {Tens : Type} (m : EncoderDecoder Tens) (img : Tens)
    (wl bl : Option (List Nat)) (ctx : List (List Nat)) (s2 : List Nat)
    (hs2 : s2 ∈ decodeStep m img wl bl ctx) :
    ∃ s row, s ∈ ctx ∧ row ∈ m.logits img ctx ∧
      s2 = s ++ [greedyToken (maskRow row wl bl)] := by
  simp only [decodeStep, List.mem_map] at hs2
  obtain ⟨p, hp, hps⟩ := hs2
  exact ⟨p.1, p.2, (List.of_mem_zip hp).1, (List.of_mem_zip hp).2, hps.symm⟩

lemma decodeLoop_token_pred {Tens : Type} (m : EncoderDecoder Tens) (img : Tens)
    (wl bl : Option (List Nat)) (eos pl : Nat) (P : Nat → Prop)
    (hstep : ∀ ctx row, row ∈ m.logits img ctx → P (greedyToken (maskRow row wl bl))) :
    ∀ n (ctx : List (List Nat)),
      (∀ s ∈ ctx, pl ≤ s.length ∧ ∀ t ∈ s.drop pl, P t) →
      ∀ s ∈ decodeLoop m img wl bl eos n ctx, pl ≤ s.length ∧ ∀ t ∈ s.drop pl, P t := by
  intro n
  induction n with
  | zero => intro ctx hinv; simpa [decodeLoop] using hinv
  | succ k ih =>
    intro ctx hinv
    simp only [decodeLoop]
    by_cases hall : ∀ s ∈ ctx, eos ∈ s
    · rw [if_pos hall]
      exact hinv
    · rw [if_neg hall]
      apply ih
      intro s2 hs2
      obtain ⟨s, row, hsmem, hrow, heq⟩ := decodeStep_mem m img wl bl ctx s2 hs2
      obtain ⟨hlen, htoks⟩ := hinv s hsmem
      subst heq
      constructor
      · simp only [List.length_append, List.length_cons, List.length_nil]
        omega
      · intro t ht
        rw [List.drop_append_eq_append_drop] at ht
        rcases List.mem_append.mp ht with h | h
        · exact htoks t h
        · have : pl - s.length = 0 := by omega
          rw [this] at h
          simp only [List.drop_zero, List.mem_singleton] at h
          subst h
          exact hstep ctx row hrow

lemma zip_get?_eq {α β : Type} : ∀ (l1 : List α) (l2 : List β) (i : Nat)
    (h1 : i < l1.length) (h2 : i < l2.length),
    (l1.zip l2).get? i = some (l1.get ⟨i, h1⟩, l2.get ⟨i, h2⟩) := by
  intro l1
  induction l1 with
  | nil => intro l2 i h1 h2; simp at h1
  | cons a t1 ih =>
    intro l2 i h1 h2
    cases l2 with
    | nil => simp at h2
    | cons b t2 =>
      cases i with
      | zero => rfl
      | succ k =>
        simp only [List.zip_cons_cons, List.get?_cons_succ]
        exact ih t2 k (by simpa using h1) (by simpa using h2)

lemma decodeStep_append_one {Tens : Type} (m : EncoderDecoder Tens) (img : Tens)
    (wl bl : Option (List Nat)) (ctx : List (List Nat))
    (hlen : (m.logits img ctx).length = ctx.length)
    (i : Nat) (hi : i < ctx.length) :
    ∃ t, (decodeStep m img wl bl ctx).get? i = some (ctx.get ⟨i, hi⟩ ++ [t]) := by
  have hi2 : i < (m.logits img ctx).length := by rw [hlen]; exact hi
  refine ⟨greedyToken (maskRow ((m.logits img ctx).get ⟨i, hi2⟩) wl bl), ?_⟩
  simp only [decodeStep]
  rw [List.get?_map, zip_get?_eq ctx (m.logits img ctx) i hi hi2]
  rfl

lemma decodeStep_length {Tens : Type} (m : EncoderDecoder Tens) (img : Tens)
    (wl bl : Option (List Nat)) (ctx : List (List Nat))
    (hlen : (m.logits img ctx).length = ctx.length) :
    (decodeStep m img wl bl ctx).length = ctx.length := by
  simp [decodeStep, List.length_zip, hlen]

lemma decodeLoop_length_le {Tens : Type} (m : EncoderDecoder Tens) (img : Tens)
    (wl bl : Option (List Nat)) (eos : Nat) :
    ∀ (n : Nat) (ctx : List (List Nat)) (c : Nat), (∀ s ∈ ctx, s.length ≤ c) →
      ∀ s ∈ decodeLoop m img wl bl eos n ctx, s.length ≤ c + n := by
  intro n
  induction n with
  | zero => intro ctx c hc s hs; simpa [decodeLoop] using hc s hs
  | succ k ih =>
    intro ctx c hc
    simp only [decodeLoop]
    by_cases hall : ∀ s ∈ ctx, eos ∈ s
    · rw [if_pos hall]
      intro s hs
      calc s.length ≤ c := hc s hs
        _ ≤ c + (k + 1) := by omega
    · rw [if_neg hall]
      intro s hs
      have hstep : ∀ s2 ∈ decodeStep m img wl bl ctx, s2.length ≤ c + 1 := by
        intro s2 hs2
        obtain ⟨s0, row, hs0, _, heq⟩ := decodeStep_mem m img wl bl ctx s2 hs2
        subst heq
        have := hc s0 hs0
        simp only [List.length_append, List.length_cons, List.length_nil]
        omega
      have := ih (decodeStep m img wl bl ctx) (c + 1) hstep s hs
      omega

lemma pyRound_abs_sub (q : ℚ) : |(pyRound q : ℚ) - q| ≤ 1 / 2 := by
  have hf1 : (⌊q⌋ : ℚ) ≤ q := Int.floor_le q
  have hf2 : q < ⌊q⌋ + 1 := Int.lt_floor_add_one q
  unfold pyRound
  split_ifs with h1 h2 h3 <;> rw [abs_le] <;> constructor <;> push_cast <;> linarith

lemma roundtrip_coord (W : ℕ) (hW : 0 < W) (x : ℤ) :
    |((pyRound (((pyRound ((x : ℚ) * ((W : ℚ) / 448)) : ℚ)) * ((448 : ℚ) / (W : ℚ)))) : ℚ) - (x : ℚ)| ≤
      1 / 2 + 224 / (W : ℚ) := by
  have hw : (W : ℚ) ≠ 0 := Nat.cast_ne_zero.mpr hW.ne'
  have hwpos : (0 : ℚ) < (W : ℚ) := by exact_mod_cast hW
  set a : ℚ := (x : ℚ) * ((W : ℚ) / 448) with ha
  set y : ℤ := pyRound a with hy
  have h1 : |(y : ℚ) - a| ≤ 1 / 2 := pyRound_abs_sub a
  set b : ℚ := (y : ℚ) * ((448 : ℚ) / (W : ℚ)) with hb
  have h2 : |(pyRound b : ℚ) - b| ≤ 1 / 2 := pyRound_abs_sub b
  have key : a * ((448 : ℚ) / (W : ℚ)) = (x : ℚ) := by
    rw [ha]; field_simp
  have h3 : |b - (x : ℚ)| ≤ 224 / (W : ℚ) := by
    have hb2 : b - (x : ℚ) = ((y : ℚ) - a) * ((448 : ℚ) / (W : ℚ)) := by
      rw [hb, ← key]; ring
    rw [hb2, abs_mul, abs_of_pos (by positivity : (0:ℚ) < (448 : ℚ) / (W : ℚ))]
    calc |(y : ℚ) - a| * ((448 : ℚ) / (W : ℚ)) ≤ (1 / 2) * ((448 : ℚ) / (W : ℚ)) := by
          apply mul_le_mul_of_nonneg_right h1 (by positivity)
      _ = 224 / (W : ℚ) := by ring
  calc |(pyRound b : ℚ) - (x : ℚ)| ≤ |(pyRound b : ℚ) - b| + |b - (x : ℚ)| := abs_sub_le _ _ _
    _ ≤ 1 / 2 + 224 / (W : ℚ) := add_le_add h2 h3

lemma isSpaceCh_of_isDigitCh (c : Char) (h : isDigitCh c = true) : isSpaceCh c = false := by
  simp only [isDigitCh, Bool.and_eq_true, decide_eq_true_eq] at h
  simp only [isSpaceCh, Bool.or_eq_false_iff, Bool.and_eq_false_iff,
    decide_eq_false_iff_not]
  omega

lemma pySub_single_match (d1 c d2 : Char) (h1 : isDigitCh d1 = true)
    (h2 : isNewlineCh c = false) (h3 : isDigitCh d2 = true) :
    pySub [d1, c, Char.ofNat 32, d2] = [d1, Char.ofNat 46, d2] := by
  have hsp : isSpaceCh (Char.ofNat 32) = true := by decide
  have hd2sp : isSpaceCh d2 = false := isSpaceCh_of_isDigitCh d2 h3
  have hmatch : matchLen [d1, c, Char.ofNat 32, d2] = some (d1, d2, []) := by
    simp only [matchLen, h1, h2, Bool.not_false, Bool.and_self, if_true,
      List.dropWhile, List.takeWhile, hsp, hd2sp, h3, List.length_cons,
      List.length_nil]
  simp only [pySub, List.length_cons, List.length_nil, pySubFuel, hmatch]

/-- C1: the claim says every call of `img_to_html` on an in-memory image
completes and returns an HTML string with a single table element.  On the
code as written this fails: line 186 calls `predict_bboxes(image_tensor)`
without the required `image_size` argument, so every call raises a
`TypeError` and returns no string at all.  This theorem evaluates the
embedded code: for every environment and image, `imgToHtml` yields the
`TypeError`, never an HTML string. -/
theorem img_to_html_raises_type_error :
    ∀ (Img Tens : Type) (env : Env Img Tens) (image : Img),
      imgToHtml env image =
        Except.error
          ("TypeError: predict_bboxes missing 1 required positional argument: image_size") :=
  fun _ _ _ _ => rfl

/-- C2: in the autoregressive decoder, with a whitelist given (and no
blacklist) every token appended after the prefix is in the whitelist, and
with a blacklist given (and no whitelist) no appended token is in the
blacklist.  The hypotheses say that each logit row produced by the model
has at least one position that survives the mask, as rows over the real
vocabulary do. -/
theorem decode_list_constraints :
    (∀ (Tens : Type) (m : EncoderDecoder Tens) (img : Tens) (pre : List Nat)
        (n eos : Nat) (wl : List Nat),
      (∀ ctx row, row ∈ m.logits img ctx → ∃ i, i ∈ wl ∧ i < row.length) →
      ∀ s ∈ autoregressiveDecode m img pre n eos (some wl) none,
      ∀ t ∈ s.drop pre.length, t ∈ wl) ∧
    (∀ (Tens : Type) (m : EncoderDecoder Tens) (img : Tens) (pre : List Nat)
        (n eos : Nat) (bl : List Nat),
      (∀ ctx row, row ∈ m.logits img ctx → ∃ i, i < row.length ∧ i ∉ bl) →
      ∀ s ∈ autoregressiveDecode m img pre n eos none (some bl),
      ∀ t ∈ s.drop pre.length, t ∉ bl) := by
  constructor
  · intro Tens m img pre n eos wl hrows s hs t ht
    have hmain := decodeLoop_token_pred m img (some wl) none eos pre.length (· ∈ wl)
      (fun ctx row hrow => greedyToken_mem_whitelist row wl (hrows ctx row hrow))
      n (List.replicate (m.batchSize img) pre)
      (by
        intro s0 hs0
        rw [List.eq_of_mem_replicate hs0]
        exact ⟨le_refl _, by simp⟩)
    exact (hmain s hs).2 t ht
  · intro Tens m img pre n eos bl hrows s hs t ht
    have hmain := decodeLoop_token_pred m img none (some bl) eos pre.length (· ∉ bl)
      (fun ctx row hrow => greedyToken_not_mem_blacklist row bl (hrows ctx row hrow))
      n (List.replicate (m.batchSize img) pre)
      (by
        intro s0 hs0
        rw [List.eq_of_mem_replicate hs0]
        exact ⟨le_refl _, by simp⟩)
    exact (hmain s hs).2 t ht

/-- Witness for C2 at a concrete model: over whitelist [0, 2] the decoder
appends token 2, a whitelist member; over blacklist [2] it appends token 1,
not a blacklist member. -/
theorem decode_list_constraints_witness :
    (2 : Nat) ∈ ([0, 2] : List Nat) ∧ (1 : Nat) ∉ ([2] : List Nat) := by
  constructor
  · exact decode_list_constraints.1 Unit sampleModel () [9] 2 7 [0, 2]
      (fun ctx row hrow => by
        simp only [sampleModel, List.mem_singleton] at hrow
        subst hrow
        exact ⟨0, by simp, by simp⟩)
      [9, 2, 2] (by decide) 2 (by decide)
  · exact decode_list_constraints.2 Unit sampleModel () [9] 2 7 [2]
      (fun ctx row hrow => by
        simp only [sampleModel, List.mem_singleton] at hrow
        subst hrow
        exact ⟨0, by simp, by simp⟩)
      [9, 1, 1] (by decide) 1 (by decide)

/-- C3: the decode loop stops before appending anything as soon as every
batch sequence contains the end-of-sequence id, and while at least one
sequence lacks it the loop runs an iteration in which every sequence of the
batch — including those already containing the end id — gets one token
appended (provided the model yields one logit row per sequence). -/
theorem decode_loop_eos_behavior :
    ∀ (Tens : Type) (m : EncoderDecoder Tens) (img : Tens) (wl bl : Option (List Nat))
      (eos n : Nat) (ctx : List (List Nat)),
    ((∀ s ∈ ctx, eos ∈ s) → decodeLoop m img wl bl eos n ctx = ctx) ∧
    ((∃ s ∈ ctx, eos ∉ s) →
      decodeLoop m img wl bl eos (n + 1) ctx =
        decodeLoop m img wl bl eos n (decodeStep m img wl bl ctx) ∧
      ((m.logits img ctx).length = ctx.length →
        ∀ i, ∀ hi : i < ctx.length,
          ∃ t, (decodeStep m img wl bl ctx).get? i = some (ctx.get ⟨i, hi⟩ ++ [t]))) := by
  intro Tens m img wl bl eos n ctx
  constructor
  · intro hall
    cases n with
    | zero => rfl
    | succ k => simp only [decodeLoop, if_pos hall]
  · intro hex
    have hnall : ¬ ∀ s ∈ ctx, eos ∈ s := by
      obtain ⟨s, hs, hn⟩ := hex
      intro hc
      exact hn (hc s hs)
    constructor
    · simp only [decodeLoop, if_neg hnall]
    · intro hlen i hi
      exact decodeStep_append_one m img wl bl ctx hlen i hi

/-- Witness for C3 at a concrete model: a batch whose only sequence already
holds the end id 7 is returned unchanged, and a batch whose sequence lacks
it goes through a decode step. -/
theorem decode_loop_eos_behavior_witness :
    decodeLoop sampleModel () none none 7 3 [[7]] = [[7]] ∧
    decodeLoop sampleModel () none none 7 3 [[9]] =
      decodeLoop sampleModel () none none 7 2 (decodeStep sampleModel () none none [[9]]) :=
  ⟨(decode_loop_eos_behavior Unit sampleModel () none none 7 3 [[7]]).1 (by decide),
    ((decode_loop_eos_behavior Unit sampleModel () none none 7 2 [[9]]).2
      ⟨[9], by decide, by decide⟩).1⟩

/-- C4: each iteration of the decode loop appends exactly one token to each
batch sequence (the step keeps the batch size and extends sequence `i` by a
single token), and the decoder never returns a sequence longer than the
prefix length plus `max_decode_len`, since the loop runs at most
`max_decode_len` iterations. -/
theorem decode_length_bound :
    ∀ (Tens : Type) (m : EncoderDecoder Tens) (img : Tens) (pre : List Nat)
      (n eos : Nat) (wl bl : Option (List Nat)),
    (∀ ctx : List (List Nat), (m.logits img ctx).length = ctx.length →
      (decodeStep m img wl bl ctx).length = ctx.length ∧
      ∀ i, ∀ hi : i < ctx.length,
        ∃ t, (decodeStep m img wl bl ctx).get? i = some (ctx.get ⟨i, hi⟩ ++ [t])) ∧
    ∀ s ∈ autoregressiveDecode m img pre n eos wl bl, s.length ≤ pre.length + n := by
  intro Tens m img pre n eos wl bl
  constructor
  · intro ctx hlen
    exact ⟨decodeStep_length m img wl bl ctx hlen,
      fun i hi => decodeStep_append_one m img wl bl ctx hlen i hi⟩
  · intro s hs
    exact decodeLoop_length_le m img wl bl eos n
      (List.replicate (m.batchSize img) pre) pre.length
      (fun s0 hs0 => by rw [List.eq_of_mem_replicate hs0]) s hs

/-- Witness for C4 at a concrete model: one step on a one-sequence batch
keeps batch size 1, and after decoding with prefix [9] and two steps the
returned sequence has length at most 3. -/
theorem decode_length_bound_witness :
    (decodeStep sampleModel () none none [[9]]).length = 1 ∧
    ([9, 1, 1] : List Nat).length ≤ 3 := by
  constructor
  · exact ((decode_length_bound Unit sampleModel () [9] 2 7 none none).1 [[9]] (by decide)).1
  · exact (decode_length_bound Unit sampleModel () [9] 2 7 none none).2 [9, 1, 1] (by decide)

/-- C5: rescaling a box with coordinates in [0, 448] from (448, 448) to
(W, H) with `_rescale_bbox` and back to (448, 448) recovers each coordinate
up to the rounding error: half a unit from the final rounding plus the
first rounding error of half a unit magnified by 448/W (respectively
448/H) on the way back. -/
theorem rescale_bbox_roundtrip :
    ∀ (W H : ℕ) (x0 y0 x1 y1 : ℤ),
    0 < W → 0 < H →
    0 ≤ x0 ∧ x0 ≤ 448 → 0 ≤ y0 ∧ y0 ≤ 448 → 0 ≤ x1 ∧ x1 ≤ 448 → 0 ≤ y1 ∧ y1 ≤ 448 →
    ∀ b : ℤ × ℤ × ℤ × ℤ,
      rescaleBBox (rescaleBBox [(x0, y0, x1, y1)] (448, 448) (W, H)) (W, H) (448, 448) = [b] →
      |(b.1 : ℚ) - (x0 : ℚ)| ≤ 1 / 2 + 224 / (W : ℚ) ∧
      |(b.2.1 : ℚ) - (y0 : ℚ)| ≤ 1 / 2 + 224 / (H : ℚ) ∧
      |(b.2.2.1 : ℚ) - (x1 : ℚ)| ≤ 1 / 2 + 224 / (W : ℚ) ∧
      |(b.2.2.2 : ℚ) - (y1 : ℚ)| ≤ 1 / 2 + 224 / (H : ℚ) := by
  intro W H x0 y0 x1 y1 hW hH hx0 hy0 hx1 hy1 b hb
  simp only [rescaleBBox, List.map_cons, List.map_nil, List.cons.injEq, and_true,
    Nat.cast_ofNat] at hb
  subst hb
  exact ⟨roundtrip_coord W hW x0, roundtrip_coord H hH y0,
    roundtrip_coord W hW x1, roundtrip_coord H hH y1⟩

/-- Witness for C5: the box (10, 20, 30, 448) rescaled from (448, 448) to
(448, 448) and back comes back unchanged, within the bound. -/
theorem rescale_bbox_roundtrip_witness :
    |(((10:ℤ) : ℚ)) - ((10:ℤ) : ℚ)| ≤ 1 / 2 + 224 / ((448:ℕ) : ℚ) ∧
    |(((20:ℤ) : ℚ)) - ((20:ℤ) : ℚ)| ≤ 1 / 2 + 224 / ((448:ℕ) : ℚ) ∧
    |(((30:ℤ) : ℚ)) - ((30:ℤ) : ℚ)| ≤ 1 / 2 + 224 / ((448:ℕ) : ℚ) ∧
    |(((448:ℤ) : ℚ)) - ((448:ℤ) : ℚ)| ≤ 1 / 2 + 224 / ((448:ℕ) : ℚ) :=
  rescale_bbox_roundtrip 448 448 10 20 30 448 (by norm_num) (by norm_num)
    (by norm_num) (by norm_num) (by norm_num) (by norm_num) (10, 20, 30, 448)
    (by simp only [rescaleBBox, List.map_cons, List.map_nil]; norm_num [pyRound])

/-- C6: the cell post-processing substitution maps "12. 5" to "12.5" and
leaves "abc" unchanged. -/
theorem cell_regex_fix_examples :
    pySubStr ("12. 5") = "12.5" ∧ pySubStr ("abc") = "abc" := by decide

/-- C7: the pipeline is a pure function of the environment (pretrained
weights, vocabularies) and the input image — greedy token selection, no
randomness — so any two runs of `img_to_html` on the same image with the
same weights produce the same outcome.  (As the code stands that shared
outcome is the `TypeError` of line 186, not an HTML string.) -/
theorem img_to_html_deterministic :
    ∀ (Img Tens : Type) (env : Env Img Tens) (image : Img)
      (r1 r2 : Except String String),
      r1 = imgToHtml env image → r2 = imgToHtml env image → r1 = r2 := by
  intro Img Tens env image r1 r2 h1 h2
  rw [h1, h2]

/-- Witness for C7 at a concrete environment. -/
theorem img_to_html_deterministic_witness :
    imgToHtml sampleEnv () = imgToHtml sampleEnv () :=
  img_to_html_deterministic Unit Unit sampleEnv ()
    (imgToHtml sampleEnv ()) (imgToHtml sampleEnv ()) rfl rfl

/-- C8: because the dot in the pattern is unescaped, the substitution
rewrites a digit followed by any single non-newline character, whitespace
and a digit, replacing the middle character (and the whitespace) with a
literal dot: the input "12 5", which contains no separator at all, becomes
"1.5"; and for any digits d1, d2 and any non-newline character c, the
four-character input d1 c space d2 becomes d1 dot d2. -/
theorem cell_regex_dot_unescaped :
    pySubStr ("12 5") = "1.5" ∧
    (∀ d1 c d2 : Char, isDigitCh d1 = true → isNewlineCh c = false → isDigitCh d2 = true →
      pySub [d1, c, Char.ofNat 32, d2] = [d1, Char.ofNat 46, d2]) :=
  ⟨by decide, pySub_single_match⟩

/-- Witness for C8: digit 1, letter a, space, digit 5 becomes 1.5. -/
theorem cell_regex_dot_unescaped_witness :
    pySub [Char.ofNat 49, Char.ofNat 97, Char.ofNat 32, Char.ofNat 53] =
      [Char.ofNat 49, Char.ofNat 46, Char.ofNat 53] :=
  cell_regex_dot_unescaped.2 (Char.ofNat 49) (Char.ofNat 97) (Char.ofNat 53)
    (by decide) (by decide) (by decide)

/-- C9: `predict_cells` does not depend on its `image_tensor` argument: the
parameter is rebound to the crops of `image` (line 159) before any use, so
any two tensor arguments give the same result. -/
theorem predict_cells_ignores_image_tensor :
    ∀ (Img Tens : Type) (env : Env Img Tens) (t1 t2 : Tens)
      (predBbox : List (ℤ × ℤ × ℤ × ℤ)) (image : Img),
      predictCells env t1 predBbox image = predictCells env t2 predBbox image :=
  fun _ _ _ _ _ _ _ => rfl

/-- C10: called with an empty bounding-box list, `predict_cells` hits
`torch.cat` on an empty list of crop tensors (line 162), which raises,
rather than returning an empty list of cell texts. -/
theorem predict_cells_empty_bbox_error :
    ∀ (Img Tens : Type) (env : Env Img Tens) (t : Tens) (image : Img),
      predictCells env t [] image =
        Except.error ("torch.cat: expected a non-empty list of Tensors") :=
  fun _ _ _ _ _ => rfl
